import Mathlib

set_option maxRecDepth 100000

/-!
Verification development for the treasury-bot orchestration engine.

The definitions below are shallow embeddings of the TypeScript sources:
arbitrary-precision `bigint` values become `Int` (or `Nat` where the value
is a byte or an index), fallible operations return `Option`/`Except`, and
the chain/marketplace collaborators are passed in explicitly as oracle
data.  Theorems at the end of the file settle the specification claims.
-/

namespace TreasuryBot

/-! ## Keccak-256 (order-hash engine primitive)

The order-hash engine (`deriveSeaportOrderHash` and `hashStructArray`)
is built on `keccak256` from viem.  We embed the full Keccak-f[1600]
permutation over `Nat` lanes masked to 64 bits, with the original Keccak
padding (domain bit 0x01), which is the hash Ethereum uses. -/

def mask64 : Nat := 0xFFFFFFFFFFFFFFFF

def rotl64 (x n : Nat) : Nat :=
  ((x <<< n) ||| (x >>> (64 - n))) &&& mask64

/-- Read lane `i` of a 25-lane state stored as a list (missing entries are 0). -/
def lane (s : List Nat) (i : Nat) : Nat := s.getD i 0

def keccakTheta (s : List Nat) : List Nat :=
  let c := (List.range 5).map fun x =>
    lane s x ^^^ lane s (x + 5) ^^^ lane s (x + 10) ^^^ lane s (x + 15) ^^^ lane s (x + 20)
  let d := (List.range 5).map fun x =>
    lane c ((x + 4) % 5) ^^^ rotl64 (lane c ((x + 1) % 5)) 1
  (List.range 25).map fun i => lane s i ^^^ lane d (i % 5)

/-- Rho rotation offsets (lanes ordered `x + 5*y`), generated from the
`(x, y) ↦ (y, 2x + 3y mod 5)` walk of FIPS 202 with the triangular-number
rotation amounts. -/
def rhoOffsets : List Nat :=
  ((List.range 24).foldl
    (fun acc t =>
      (acc.1.set (acc.2.1 + 5 * acc.2.2) (((t + 1) * (t + 2) / 2) % 64),
        acc.2.2, (2 * acc.2.1 + 3 * acc.2.2) % 5))
    (List.replicate 25 0, 1, 0)).1

def keccakRhoPi (s : List Nat) : List Nat :=
  (List.range 25).map fun i =>
    let x := i % 5
    let y := i / 5
    let j := (x + 3 * y) % 5 + 5 * x
    rotl64 (lane s j) (lane rhoOffsets j)

def keccakChi (s : List Nat) : List Nat :=
  (List.range 25).map fun i =>
    let x := i % 5
    let y := i / 5
    lane s i ^^^ ((lane s ((x + 1) % 5 + 5 * y) ^^^ mask64) &&& lane s ((x + 2) % 5 + 5 * y))

/-- One step of the degree-8 LFSR of FIPS 202 Algorithm 5 (rc). -/
def rcStep (r : Nat) : Nat :=
  if r &&& 0x80 ≠ 0 then ((r <<< 1) ^^^ 0x71) &&& 0xFF else (r <<< 1) &&& 0xFF

/-- Bit `t` of the round-constant sequence. -/
def rcBit (t : Nat) : Nat :=
  (rcStep^[t] 1) &&& 1

/-- The 24 Keccak-f[1600] round constants, generated from the LFSR: bit
`2^j - 1` of constant `i` is `rc(7*i + j)`. -/
def keccakRoundConstants : List Nat :=
  (List.range 24).map fun i =>
    (List.range 7).foldl (fun acc j => acc ||| (rcBit (7 * i + j) <<< (2 ^ j - 1))) 0

def keccakRound (s : List Nat) (rc : Nat) : List Nat :=
  match keccakChi (keccakRhoPi (keccakTheta s)) with
  | [] => []
  | a :: rest => (a ^^^ rc) :: rest

def keccakF (s : List Nat) : List Nat :=
  keccakRoundConstants.foldl keccakRound s

/-- Little-endian 64-bit lane loaded from bytes `8*j .. 8*j+7` of a block. -/
def loadLane (block : List Nat) (j : Nat) : Nat :=
  (List.range 8).foldr (fun k acc => acc * 256 + block.getD (8 * j + k) 0) 0

def absorbBlock (s block : List Nat) : List Nat :=
  keccakF ((List.range 25).map fun i => if i < 17 then lane s i ^^^ loadLane block i else lane s i)

/-- Original Keccak pad10*1 with domain byte 0x01 at rate 136 bytes. -/
def padKeccak (msg : List Nat) : List Nat :=
  let padLen := 136 - msg.length % 136
  if padLen = 1 then msg ++ [0x81]
  else msg ++ [0x01] ++ List.replicate (padLen - 2) 0 ++ [0x80]

def chunksAux : Nat → List Nat → List (List Nat)
  | 0, _ => []
  | _ + 1, [] => []
  | n + 1, l => l.take 136 :: chunksAux n (l.drop 136)

/-- Split a byte sequence into rate-sized (136-byte) blocks. -/
def chunks136 (l : List Nat) : List (List Nat) :=
  chunksAux (l.length / 136 + 1) l

def lanesToBytesLE (s : List Nat) (numBytes : Nat) : List Nat :=
  (List.range numBytes).map fun k => (lane s (k / 8) >>> (8 * (k % 8))) &&& 0xFF

def bytesToNatBE (bs : List Nat) : Nat :=
  bs.foldl (fun acc b => acc * 256 + b) 0

/-- Keccak-256 of a byte sequence, returned as the 256-bit big-endian value. -/
def keccak256 (msg : List Nat) : Nat :=
  bytesToNatBE (lanesToBytesLE ((chunks136 (padKeccak msg)).foldl absorbBlock (List.replicate 25 0)) 32)

/-- Known test vector: keccak256 of the empty byte string. -/
theorem keccak256_nil :
    keccak256 [] = 0xc5d2460186f7233c927e7db2dcc703c0e500b653ca82273b7bfad8045d85a470 := by
  decide

/-- Known test vector: keccak256 of the ASCII bytes of "abc". -/
theorem keccak256_abc :
    keccak256 [0x61, 0x62, 0x63] =
      0x4e03657aea45a94fc7d47ba826c8d667c0d1e6e33a64a036ec44f58fa12d6c45 := by
  decide

/-! ## Order-hash engine (`deriveSeaportOrderHash`, `hashStructArray`)

ABI head-encoding of the static types used here (`bytes32`, `address`,
`uintN`) pads every value to one 32-byte big-endian word, so
`encodeAbiParameters` is embedded as the concatenation of 32-byte words. -/

/-- Big-endian 32-byte encoding of a 256-bit word. -/
def wordToBytes32 (w : Nat) : List Nat :=
  (List.range 32).map fun k => (w >>> (8 * (31 - k))) &&& 0xFF

/-- ASCII bytes of a type string, as fed to `keccak256` via `TextEncoder`. -/
def strToBytes (s : String) : List Nat :=
  s.toList.map Char.toNat

def OFFER_ITEM_TYPEHASH : Nat :=
  keccak256 (strToBytes
    "OfferItem(uint8 itemType,address token,uint256 identifierOrCriteria,uint256 startAmount,uint256 endAmount)")

def CONSIDERATION_ITEM_TYPEHASH : Nat :=
  keccak256 (strToBytes
    "ConsiderationItem(uint8 itemType,address token,uint256 identifierOrCriteria,uint256 startAmount,uint256 endAmount,address recipient)")

def ORDER_TYPEHASH : Nat :=
  keccak256 (strToBytes
    "OrderComponents(address offerer,address zone,OfferItem[] offer,ConsiderationItem[] consideration,uint8 orderType,uint256 startTime,uint256 endTime,bytes32 zoneHash,uint256 salt,bytes32 conduitKey,uint256 totalOriginalConsiderationItems,uint256 counter)OfferItem(uint8 itemType,address token,uint256 identifierOrCriteria,uint256 startAmount,uint256 endAmount)ConsiderationItem(uint8 itemType,address token,uint256 identifierOrCriteria,uint256 startAmount,uint256 endAmount,address recipient)")

structure SeaportOfferItem where
  itemType : Nat
  token : Nat
  identifierOrCriteria : Nat
  startAmount : Nat
  endAmount : Nat
deriving DecidableEq, Repr

structure SeaportConsiderationItem extends SeaportOfferItem where
  recipient : Nat
deriving DecidableEq, Repr

structure SeaportOrderComponents where
  offerer : Nat
  zone : Nat
  offer : List SeaportOfferItem
  consideration : List SeaportConsiderationItem
  orderType : Nat
  startTime : Nat
  endTime : Nat
  zoneHash : Nat
  salt : Nat
  conduitKey : Nat
  totalOriginalConsiderationItems : Nat
  counter : Nat
deriving DecidableEq, Repr

/-- Keccak256 of the concatenation of 32-byte words (ABI head encoding). -/
def keccakOfWords (ws : List Nat) : Nat :=
  keccak256 (ws.map wordToBytes32).flatten

def hashOfferItem (item : SeaportOfferItem) : Nat :=
  keccakOfWords
    [OFFER_ITEM_TYPEHASH, item.itemType, item.token, item.identifierOrCriteria,
     item.startAmount, item.endAmount]

def hashConsiderationItem (item : SeaportConsiderationItem) : Nat :=
  keccakOfWords
    [CONSIDERATION_ITEM_TYPEHASH, item.itemType, item.token, item.identifierOrCriteria,
     item.startAmount, item.endAmount, item.recipient]

/-- Embedding of `hashStructArray`: the empty array hashes the empty byte
string, a non-empty array hashes the concatenation of the item hashes. -/
def hashStructArray (hashes : List Nat) : Nat :=
  if hashes = [] then keccak256 []
  else keccak256 (hashes.map wordToBytes32).flatten

def deriveSeaportOrderHash (order : SeaportOrderComponents) : Nat :=
  keccakOfWords
    [ORDER_TYPEHASH, order.offerer, order.zone,
     hashStructArray (order.offer.map hashOfferItem),
     hashStructArray (order.consideration.map hashConsiderationItem),
     order.orderType, order.startTime, order.endTime, order.zoneHash,
     order.salt, order.conduitKey, order.totalOriginalConsiderationItems,
     order.counter]

/-! ## Ledger data model (`types.ts`) and persisted store (`stateStore.ts`)

TypeScript `bigint` fields become `Int`.  The SQLite store keeps the pool
and block values as decimal strings; since `BigInt(x.toString()) = x` is
an exact round trip, the rows carry the integers directly.  The
`tokenStandard` column is kept as the stored string because reading maps
it back through an explicit comparison. -/

inductive TokenStandard where
  | erc721
  | erc1155
deriving DecidableEq, Repr

structure ActiveListingState where
  orderHash : String
  collection : String
  tokenId : String
  expectedProceedsWei : Int
  listedAtMs : Int
  tokenStandard : TokenStandard
  listedQuantity : Int
  expectedPostSaleBalance : Option Int
deriving DecidableEq, Repr

structure BotState where
  version : Int
  commissionPoolWei : Int
  salePoolWei : Int
  pendingBurnAmount : Int
  pendingBurnCostWei : Int
  activeListings : List ActiveListingState
  lastTaxBlock : Int
deriving DecidableEq, Repr

def STATE_VERSION : Int := 3

structure StateRow where
  version : Int
  commissionPoolWei : Int
  salePoolWei : Int
  lastTaxBlock : Int
  pendingBurnAmount : Int
  pendingBurnCostWei : Int
deriving DecidableEq, Repr

structure ListingRow where
  orderHash : String
  collection : String
  tokenId : String
  expectedProceedsWei : Int
  listedAtMs : Int
  tokenStandard : String
  listedQuantity : Int
  expectedPostSaleBalance : Option Int
deriving DecidableEq, Repr

structure DbState where
  stateRow : Option StateRow
  listingRows : List ListingRow
deriving DecidableEq, Repr

def tokenStandardString : TokenStandard → String
  | .erc721 => "erc721"
  | .erc1155 => "erc1155"

def listingToRow (l : ActiveListingState) : ListingRow :=
  { orderHash := l.orderHash
    collection := l.collection
    tokenId := l.tokenId
    expectedProceedsWei := l.expectedProceedsWei
    listedAtMs := l.listedAtMs
    tokenStandard := tokenStandardString l.tokenStandard
    listedQuantity := l.listedQuantity
    expectedPostSaleBalance := l.expectedPostSaleBalance }

def rowToListing (row : ListingRow) : ActiveListingState :=
  { orderHash := row.orderHash
    collection := row.collection
    tokenId := row.tokenId
    expectedProceedsWei := row.expectedProceedsWei
    listedAtMs := row.listedAtMs
    tokenStandard := if row.tokenStandard = "erc1155" then .erc1155 else .erc721
    listedQuantity := row.listedQuantity
    expectedPostSaleBalance := row.expectedPostSaleBalance }

/-- One `INSERT INTO listings` statement: `orderHash` is the primary key,
so inserting a duplicate throws and aborts the transaction. -/
def insertListingRow (rows : List ListingRow) (l : ActiveListingState) : Option (List ListingRow) :=
  if rows.any fun r => r.orderHash == l.orderHash then none
  else some (rows ++ [listingToRow l])

def insertListingRows (rows : List ListingRow) : List ActiveListingState → Option (List ListingRow)
  | [] => some rows
  | l :: ls =>
    match insertListingRow rows l with
    | none => none
    | some rows2 => insertListingRows rows2 ls

/-- Embedding of `persistState`: one transaction that upserts the scalar
row (writing `STATE_VERSION`, not the in-memory version), deletes all
listing rows and reinserts the current listing set.  `none` models the
transaction aborting on a duplicate order hash. -/
def persistState (state : BotState) : Option DbState :=
  match insertListingRows [] state.activeListings with
  | none => none
  | some rows =>
    some
      { stateRow := some
          { version := STATE_VERSION
            commissionPoolWei := state.commissionPoolWei
            salePoolWei := state.salePoolWei
            lastTaxBlock := state.lastTaxBlock
            pendingBurnAmount := state.pendingBurnAmount
            pendingBurnCostWei := state.pendingBurnCostWei }
        listingRows := rows }

/-- Embedding of `readStateFromDatabase`: floor-clamps the version to
`STATE_VERSION` and returns the listings ordered by `listedAtMs`
ascending (a stable sort of the stored rows). -/
def readStateFromDatabase (db : DbState) : Option BotState :=
  match db.stateRow with
  | none => none
  | some stateRow =>
    let normalizedVersion := if stateRow.version < STATE_VERSION then STATE_VERSION else stateRow.version
    let listings := db.listingRows.mergeSort fun a b => decide (a.listedAtMs ≤ b.listedAtMs)
    some
      { version := normalizedVersion
        commissionPoolWei := stateRow.commissionPoolWei
        salePoolWei := stateRow.salePoolWei
        pendingBurnAmount := stateRow.pendingBurnAmount
        pendingBurnCostWei := stateRow.pendingBurnCostWei
        lastTaxBlock := stateRow.lastTaxBlock
        activeListings := listings.map rowToListing }

/-- Save followed by load, the round trip of the persistence claim. -/
def persistThenLoad (state : BotState) : Option BotState :=
  (persistState state).bind readStateFromDatabase

/-! ## Consideration rescaling (`openseaListings.ts`, `scaleConsiderationAmounts`)

TypeScript `bigint` division truncates toward zero, which is `Int.tdiv`. -/

structure ConsiderationBlueprintItem where
  itemType : Nat
  token : String
  identifierOrCriteria : Int
  originalAmount : Int
  recipient : String
  isSellerProceeds : Bool
deriving DecidableEq, Repr

structure ScaledConsiderationItem where
  itemType : Nat
  token : String
  identifierOrCriteria : Int
  amount : Int
  recipient : String
deriving DecidableEq, Repr

/-- Loop body of `scaleConsiderationAmounts`: the final list item takes the
remainder (floored at zero), every earlier item its truncated
proportional share, with the remainder updated as the loop goes. -/
def scaleAux (treasury : String) (originalTotal newTotal : Int) :
    List ConsiderationBlueprintItem → Int → List ScaledConsiderationItem
  | [], _ => []
  | item :: rest, remainder =>
    let proportional := Int.tdiv (newTotal * item.originalAmount) originalTotal
    let amount :=
      if rest.isEmpty then (if remainder > 0 then remainder else 0) else proportional
    let nextRemainder := if rest.isEmpty then remainder else remainder - proportional
    { itemType := item.itemType
      token := item.token
      identifierOrCriteria := item.identifierOrCriteria
      amount := amount
      recipient := if item.isSellerProceeds then treasury else item.recipient } ::
      scaleAux treasury originalTotal newTotal rest nextRemainder

def scaleConsiderationAmounts (treasury : String)
    (items : List ConsiderationBlueprintItem) (originalTotal newTotal : Int) :
    List ScaledConsiderationItem :=
  if originalTotal = 0 ∨ newTotal = 0 then []
  else scaleAux treasury originalTotal newTotal items newTotal

/-! ## String helpers

`String.prototype.toLowerCase` and `String.prototype.includes` are
embedded on the character-list representation of strings. -/

def strToLower (s : String) : String :=
  String.mk (s.data.map Char.toLower)

def listStartsWith (pat : List Char) : List Char → Bool
  | l =>
    match pat, l with
    | [], _ => true
    | _ :: _, [] => false
    | p :: ps, c :: cs => p == c && listStartsWith ps cs

def listHasSub (pat : List Char) : List Char → Bool
  | [] => pat.isEmpty
  | c :: cs => listStartsWith pat (c :: cs) || listHasSub pat cs

/-- Embedding of `String.prototype.includes`. -/
def strContains (s pat : String) : Bool :=
  listHasSub pat.toList s.toList

/-! ## Tax collector (`collectNewTaxProceeds`)

Chain access is passed in as oracle data: the current head block and the
list of `WalletTaxSent` logs the provider would return.  The scan loop is
embedded with explicit fuel; with the fuel `collectNewTaxProceeds`
supplies, the fuel never runs out before the cursor passes the head. -/

structure TaxLog where
  blockNumber : Int
  recipient : String
  amount : Int
deriving DecidableEq, Repr

def MAX_LOG_SPAN : Int := 10

/-- Predicate applied to each log inside the scan loop: recipient equals
the treasury case-insensitively and the amount is a positive bigint. -/
def taxLogMatches (treasury : String) (e : TaxLog) : Bool :=
  strToLower e.recipient == strToLower treasury && decide (0 < e.amount)

/-- Result of one `getLogs` request over an inclusive block range. -/
def getLogsInRange (events : List TaxLog) (fromBlock toBlock : Int) : List TaxLog :=
  events.filter fun e => decide (fromBlock ≤ e.blockNumber) && decide (e.blockNumber ≤ toBlock)

def taxScanAux (events : List TaxLog) (treasury : String) (latest : Int) :
    Nat → Int → Int
  | 0, _ => 0
  | fuel + 1, cursor =>
    if cursor ≤ latest then
      let rangeEnd := cursor + (MAX_LOG_SPAN - 1)
      let toBlock := if rangeEnd > latest then latest else rangeEnd
      let logs := getLogsInRange events cursor toBlock
      let sumHere := ((logs.filter (taxLogMatches treasury)).map (·.amount)).sum
      sumHere + taxScanAux events treasury latest fuel (toBlock + 1)
    else 0

/-- The chunked scan loop of `collectNewTaxProceeds`, summing matching
amounts over `(cursor .. latest)` in sub-ranges of `MAX_LOG_SPAN` blocks. -/
def taxScan (events : List TaxLog) (treasury : String) (cursor latest : Int) : Int :=
  taxScanAux events treasury latest ((latest + 1 - cursor).toNat + 1) cursor

structure TaxEnv where
  tokenConfigured : Bool
  latest : Int
  events : List TaxLog
  treasury : String
deriving Repr

/-- Embedding of `collectNewTaxProceeds`.  Returns the updated state, the
snapshot passed to `save` (if any), and the boolean the service returns. -/
def collectNewTaxProceeds (env : TaxEnv) (s : BotState) :
    BotState × Option BotState × Bool :=
  if !env.tokenConfigured then (s, none, false)
  else if s.lastTaxBlock = 0 then
    let s2 := { s with lastTaxBlock := env.latest }
    (s2, some s2, false)
  else if s.lastTaxBlock ≥ env.latest then (s, none, false)
  else
    let totalCollected := taxScan env.events env.treasury (s.lastTaxBlock + 1) env.latest
    if totalCollected > 0 then
      let s2 := { s with lastTaxBlock := env.latest
                         commissionPoolWei := s.commissionPoolWei + totalCollected }
      (s2, some s2, true)
    else
      let s2 := { s with lastTaxBlock := env.latest }
      (s2, some s2, false)

/-- Single-pass sum of matching log amounts over an inclusive block
range, the specification-side value the chunked scan must collect. -/
def sumMatchingIn (treasury : String) (events : List TaxLog) (lo hi : Int) : Int :=
  (((getLogsInRange events lo hi).filter (taxLogMatches treasury)).map (·.amount)).sum

/-! ## Listing reconciler (`reconcileListings`)

The per-listing chain read is an oracle from the listing's position in
`activeListings` to either a thrown error or a returned value.  A value
of the wrong shape for the listing's standard fails the `typeof` check in
the source and lands on the same catch path as a thrown read. -/

inductive ChainVal where
  | ownerIs (owner : String)
  | balanceIs (balance : Int)
deriving DecidableEq, Repr

abbrev ListingReads := Nat → Except Unit ChainVal

/-- Loop of `reconcileListings`: walks the listings carrying the running
position, the number checked so far and producing the kept listings and
the captured proceeds. -/
def reconLoop (treasury : String) (cap : Nat) (reads : ListingReads) :
    List ActiveListingState → Nat → Nat → List ActiveListingState × Int
  | [], _, _ => ([], 0)
  | listing :: rest, pos, checked =>
    if checked ≥ cap then
      let r := reconLoop treasury cap reads rest (pos + 1) checked
      (listing :: r.1, r.2)
    else
      let r := reconLoop treasury cap reads rest (pos + 1) (checked + 1)
      match reads pos with
      | .error _ => (listing :: r.1, r.2)
      | .ok v =>
        match listing.tokenStandard, v with
        | .erc1155, .balanceIs balance =>
          let targetBalance := listing.expectedPostSaleBalance.getD 0
          if balance > targetBalance then (listing :: r.1, r.2)
          else (r.1, r.2 + listing.expectedProceedsWei)
        | .erc1155, .ownerIs _ => (listing :: r.1, r.2)
        | .erc721, .ownerIs owner =>
          if strToLower owner == strToLower treasury then (listing :: r.1, r.2)
          else (r.1, r.2 + listing.expectedProceedsWei)
        | .erc721, .balanceIs _ => (listing :: r.1, r.2)

/-- Embedding of `reconcileListings`: returns the updated state, the
snapshot passed to `save` (only when proceeds were captured), and the
captured proceeds the function returns. -/
def reconcileListings (treasury : String) (cap : Nat) (reads : ListingReads)
    (s : BotState) : BotState × Option BotState × Int :=
  if s.activeListings.isEmpty then (s, none, 0)
  else
    let r := reconLoop treasury cap reads s.activeListings 0 0
    if r.2 > 0 then
      let s2 := { s with activeListings := r.1, salePoolWei := s.salePoolWei + r.2 }
      (s2, some s2, r.2)
    else
      let s2 := { s with activeListings := r.1 }
      (s2, none, r.2)

/-- Specification-side sale test for the listing at position `pos`: it is
within the per-tick cap, its read returned a value of the right shape,
and that value indicates the asset left the treasury. -/
def saleDetected (treasury : String) (cap : Nat) (reads : ListingReads)
    (pos : Nat) (listing : ActiveListingState) : Bool :=
  decide (pos < cap) &&
    match reads pos with
    | .error _ => false
    | .ok (.ownerIs owner) =>
      match listing.tokenStandard with
      | .erc721 => !(strToLower owner == strToLower treasury)
      | .erc1155 => false
    | .ok (.balanceIs balance) =>
      match listing.tokenStandard with
      | .erc1155 => decide (balance ≤ listing.expectedPostSaleBalance.getD 0)
      | .erc721 => false

/-! ## Buyback-and-burn engine (`performBuybackAndBurn`, `completePendingBurn`)

Transaction submission and chain reads are oracle data; the run result
records the final in-memory state, the snapshots persisted in order, the
transactions submitted in order, and whether the call returned or threw. -/

inductive BuybackTx where
  | swapTx (amountWei : Int)
  | burnTx (amount : Int)
deriving DecidableEq, Repr

deriving instance DecidableEq for Except

structure BuybackRun where
  state : BotState
  saves : List BotState
  txs : List BuybackTx
  outcome : Except Unit Bool
deriving DecidableEq, Repr

structure BuybackEnv where
  tokenConfigured : Bool
  routerConfigured : Bool
  wethConfigured : Bool
  burnOk : Bool
  routerAllowed : Bool
  balanceBefore : Int
  balancePoll : Nat → Int
  swapOk : Bool
  buybackChunkWei : Option Int

/-- The `costToDeduct` computation of `completePendingBurn`: the
recorded cost capped at the current pool balance, or zero for a
non-positive recorded cost. -/
def cappedBurnDeduct (costSource salePool : Int) : Int :=
  if costSource > 0 then
    if salePool ≥ costSource then costSource else salePool
  else 0

/-- Embedding of `completePendingBurn`.  Mutations happen only after the
burn transfer is confirmed, so a throw leaves the state as it was. -/
def completePendingBurn (env : BuybackEnv) (s : BotState)
    (spentWeiOverride : Option Int) : BuybackRun :=
  if s.pendingBurnAmount ≤ 0 then ⟨s, [], [], .ok false⟩
  else if !env.tokenConfigured then ⟨s, [], [], .error ()⟩
  else if !env.burnOk then ⟨s, [], [.burnTx s.pendingBurnAmount], .error ()⟩
  else
    let costToDeduct := cappedBurnDeduct (spentWeiOverride.getD s.pendingBurnCostWei) s.salePoolWei
    let s2 :=
      { s with
        pendingBurnAmount := 0
        pendingBurnCostWei := 0
        salePoolWei := if costToDeduct > 0 then s.salePoolWei - costToDeduct else s.salePoolWei }
    ⟨s2, [s2], [.burnTx s.pendingBurnAmount], .ok false⟩

/-- The three `balanceOf` polls after the swap: stop at the first value
above the pre-swap balance, otherwise keep the last read. -/
def pollBalanceAfter (env : BuybackEnv) : Int :=
  let b0 := env.balancePoll 0
  if b0 > env.balanceBefore then b0
  else
    let b1 := env.balancePoll 1
    if b1 > env.balanceBefore then b1
    else env.balancePoll 2

/-- Embedding of `performBuybackAndBurn`. -/
def performBuybackAndBurn (env : BuybackEnv) (s : BotState) : BuybackRun :=
  if !(env.tokenConfigured && env.routerConfigured && env.wethConfigured) then
    ⟨s, [], [], .ok false⟩
  else if s.pendingBurnAmount > 0 then
    let r := completePendingBurn env s none
    { r with outcome := r.outcome.map fun _ => true }
  else if s.salePoolWei ≤ 0 then ⟨s, [], [], .ok false⟩
  else
    let amountToUse :=
      match env.buybackChunkWei with
      | some chunk =>
        if chunk > 0 then (if s.salePoolWei < chunk then s.salePoolWei else chunk)
        else s.salePoolWei
      | none => s.salePoolWei
    if amountToUse ≤ 0 then ⟨s, [], [], .ok false⟩
    else if !env.routerAllowed then ⟨s, [], [], .ok false⟩
    else if !env.swapOk then ⟨s, [], [.swapTx amountToUse], .error ()⟩
    else
      let balanceAfter := pollBalanceAfter env
      let purchasedAmount :=
        if balanceAfter > env.balanceBefore then balanceAfter - env.balanceBefore else 0
      if purchasedAmount = 0 then
        let s2 :=
          { s with
            pendingBurnAmount := 0
            pendingBurnCostWei := 0
            salePoolWei := if s.salePoolWei ≥ amountToUse then s.salePoolWei - amountToUse else 0 }
        ⟨s2, [s2], [.swapTx amountToUse], .ok true⟩
      else
        let s1 := { s with pendingBurnAmount := purchasedAmount, pendingBurnCostWei := amountToUse }
        let r := completePendingBurn env s1 (some amountToUse)
        ⟨r.state, s1 :: r.saves, .swapTx amountToUse :: r.txs, r.outcome.map fun _ => true⟩

/-! ## Transaction submitter nonce cache (`treasuryClient.ts`)

The cache is the module-level `cachedNonce`; attempts are an oracle from
the escalation step index to the submission outcome.  The error message
classification follows the `message.includes` checks of the source. -/

inductive AttemptOutcome where
  | accepted
  | failed (message : String)
deriving DecidableEq, Repr

def FEE_MULTIPLIERS : List Int := [100, 120, 140]

def isUnderpricedMessage (message : String) : Bool :=
  strContains message "replacement transaction underpriced" ||
    strContains message "nonce too low" ||
    strContains message "fee too low" ||
    strContains message "max fee per gas less than block base fee"

/-- Embedding of `acquireNextNonce`: returns the nonce to use, the new
cache, and whether the pending transaction count was read from chain. -/
def acquireNextNonce (cache : Option Int) (chainPendingCount : Int) :
    Int × Option Int × Bool :=
  match cache with
  | none => (chainPendingCount, some chainPendingCount, true)
  | some n => (n, some n, false)

def incrementNonce (cache : Option Int) : Option Int :=
  cache.map (· + 1)

/-- The escalation loop shared by `writeContractWithAdaptiveFees` and
`sendTransactionWithAdaptiveFees`: on success increment the cache; on a
retryable error before the last multiplier, reset the cache when the
message indicates a stale nonce and move to the next multiplier;
otherwise propagate the error at once. -/
def submitAttempts (attempts : Nat → AttemptOutcome) :
    List Int → Nat → Option Int → Except String Unit × Option Int
  | [], _, cache => (.error "", cache)
  | _ :: rest, idx, cache =>
    match attempts idx with
    | .accepted => (.ok (), incrementNonce cache)
    | .failed msg =>
      let message := (strToLower msg)
      if !isUnderpricedMessage message || rest.isEmpty then (.error msg, cache)
      else
        let cache2 := if strContains message "nonce too low" then none else cache
        submitAttempts attempts rest (idx + 1) cache2

/-- Embedding of `writeContractWithAdaptiveFees`: acquire the nonce once
(filling the cache from chain when empty), then run the escalation loop. -/
def writeContractWithAdaptiveFees (attempts : Nat → AttemptOutcome)
    (cache : Option Int) (chainPendingCount : Int) : Except String Unit × Option Int :=
  let acq := acquireNextNonce cache chainPendingCount
  submitAttempts attempts FEE_MULTIPLIERS 0 acq.2.1

/-- Cache evolution across one submission call with every attempt
accepted at the first multiplier. -/
def submitOnceCache (cache : Option Int) (chainPendingCount : Int) : Option Int :=
  (writeContractWithAdaptiveFees (fun _ => .accepted) cache chainPendingCount).2

/-! ## Purchase orchestrator (`attemptPurchaseAndListing`)

The marketplace collaborator and the chain are oracle data; the run
records the ordered trace of submissions, persists and the relist
attempt, which is what the durability claim is about. -/

inductive PurchaseEvent where
  | submitPurchase (costWei : Int)
  | persist (snapshot : BotState)
  | relistAttempt
deriving DecidableEq, Repr

structure ExecutionPayload where
  valueWei : Int
  hasMetadata : Bool
deriving DecidableEq, Repr

structure PurchaseEnv where
  targetConfigured : Bool
  tokenIdMisconfigured : Bool
  fetchOutcome : Except Unit ExecutionPayload
  purchaseOk : Bool
  relistOutcome : Except Unit (Option ActiveListingState)

/-- Embedding of `attemptPurchaseAndListing`: returns the final state,
the ordered event trace, and the returned boolean (or a thrown error). -/
def attemptPurchaseAndListing (env : PurchaseEnv) (s : BotState) :
    BotState × List PurchaseEvent × Except Unit Bool :=
  if !env.targetConfigured then (s, [], .ok false)
  else if env.tokenIdMisconfigured then (s, [], .ok false)
  else if s.commissionPoolWei ≤ 0 then (s, [], .ok false)
  else
    match env.fetchOutcome with
    | .error _ => (s, [], .ok false)
    | .ok execution =>
      let cost := execution.valueWei
      if cost ≤ 0 ∨ s.commissionPoolWei < cost then (s, [], .ok false)
      else if !env.purchaseOk then (s, [.submitPurchase cost], .error ())
      else
        let s1 := { s with commissionPoolWei := s.commissionPoolWei - cost }
        let trace := [.submitPurchase cost, .persist s1]
        if !execution.hasMetadata then (s1, trace, .ok true)
        else
          match env.relistOutcome with
          | .error _ => (s1, trace ++ [.relistAttempt], .ok true)
          | .ok none => (s1, trace ++ [.relistAttempt], .ok true)
          | .ok (some listing) =>
            let s2 := { s1 with activeListings := s1.activeListings ++ [listing] }
            (s2, trace ++ [.relistAttempt, .persist s2], .ok true)

/-! ## Loop driver (`index.ts`, `main`)

Each tick runs the services strictly in sequence inside a single
`try/catch`; step outcomes are oracle data per tick. -/

inductive StepName where
  | taxStep
  | reconcileStep
  | buybackStep
  | purchaseStep
deriving DecidableEq, Repr

structure TickEnv where
  taxOutcome : Except Unit Unit
  reconcileOutcome : Except Unit Int
  buybackOutcome : Except Unit Bool
  purchaseOutcome : Except Unit Bool

/-- One loop iteration: the executed steps in order, and whether the
iteration's catch handler fired. -/
def runTick (env : TickEnv) : List StepName × Bool :=
  match env.taxOutcome with
  | .error _ => ([.taxStep], true)
  | .ok _ =>
    match env.reconcileOutcome with
    | .error _ => ([.taxStep, .reconcileStep], true)
    | .ok _ =>
      match env.buybackOutcome with
      | .error _ => ([.taxStep, .reconcileStep, .buybackStep], true)
      | .ok actionPerformed =>
        if actionPerformed then ([.taxStep, .reconcileStep, .buybackStep], false)
        else
          match env.purchaseOutcome with
          | .error _ => ([.taxStep, .reconcileStep, .buybackStep, .purchaseStep], true)
          | .ok _ => ([.taxStep, .reconcileStep, .buybackStep, .purchaseStep], false)

/-- The infinite loop restricted to finitely many observed ticks: the
catch handler keeps every error inside its own iteration, so each tick
runs `runTick` regardless of what earlier ticks did. -/
def runLoop (ticks : List TickEnv) : List (List StepName × Bool) :=
  ticks.map runTick

/-! ## Theorems settling the claims -/

/-- C9: in the order-hash engine, an empty offer array and an empty
consideration array each hash to keccak256 of the empty byte string,
never to the all-zero 32-byte word, while a non-empty array hashes the
concatenation of its item struct hashes. -/
theorem hashStructArray_empty_and_concat :
    hashStructArray [] = keccak256 [] ∧
    hashStructArray [] =
      0xc5d2460186f7233c927e7db2dcc703c0e500b653ca82273b7bfad8045d85a470 ∧
    hashStructArray [] ≠ 0 ∧
    ∀ hashes : List Nat, hashes ≠ [] →
      hashStructArray hashes = keccak256 (hashes.map wordToBytes32).flatten := by
  refine ⟨rfl, keccak256_nil, ?_, ?_⟩
  · rw [show hashStructArray [] = keccak256 [] from rfl, keccak256_nil]
    decide
  · intro hashes h
    simp [hashStructArray, h]

/-- Witness for C9 at the singleton array. -/
theorem hashStructArray_empty_and_concat_witness :
    hashStructArray [1] = keccak256 (([1] : List Nat).map wordToBytes32).flatten :=
  hashStructArray_empty_and_concat.2.2.2 [1] (by decide)

/-- A tick whose tax-collection step throws, with every later step able
to succeed. -/
def tickEnvTaxError : TickEnv :=
  { taxOutcome := .error ()
    reconcileOutcome := .ok 0
    buybackOutcome := .ok false
    purchaseOutcome := .ok false }

/-- C8 counterexample: the loop driver wraps the whole tick in a single
try/catch, so when tax collection throws, the remaining steps of that
tick do not run, contradicting the claim that they still run. -/
theorem runTick_tax_error_skips_remaining_steps :
    runTick tickEnvTaxError = ([.taxStep], true) ∧
    StepName.reconcileStep ∉ (runTick tickEnvTaxError).1 ∧
    StepName.buybackStep ∉ (runTick tickEnvTaxError).1 ∧
    StepName.purchaseStep ∉ (runTick tickEnvTaxError).1 := by
  decide

/-- C8 (amended): an error in a step is caught at tick level — the
erroring tick stops after the failing step, the loop keeps running, and
the ticks after it execute exactly as they would have, their steps
starting again from tax collection. -/
theorem loop_error_isolated_per_tick :
    ∀ (pre post : List TickEnv) (env : TickEnv),
      env.taxOutcome = .error () →
      runTick env = ([.taxStep], true) ∧
      runLoop (pre ++ env :: post) = runLoop pre ++ runTick env :: runLoop post ∧
      ∀ t : TickEnv, t.taxOutcome = .ok () →
        (runTick t).1.take 2 = [.taxStep, .reconcileStep] := by
  intro pre post env herr
  refine ⟨?_, ?_, ?_⟩
  · simp [runTick, herr]
  · simp [runLoop]
  · intro t ht
    simp only [runTick, ht]
    rcases t.reconcileOutcome with e | n
    · rfl
    · rcases t.buybackOutcome with e | b
      · rfl
      · rcases b with _ | _
        · rcases t.purchaseOutcome with e | r <;> rfl
        · rfl

/-- Witness for C8 (amended) on a one-tick loop with a failing tax step. -/
theorem loop_error_isolated_per_tick_witness :
    runTick tickEnvTaxError = ([.taxStep], true) ∧
    runLoop ([] ++ tickEnvTaxError :: []) =
      runLoop [] ++ runTick tickEnvTaxError :: runLoop [] :=
  ⟨(loop_error_isolated_per_tick [] [] tickEnvTaxError rfl).1,
   (loop_error_isolated_per_tick [] [] tickEnvTaxError rfl).2.1⟩

/-- Once the nonce cache has been invalidated, nothing later in the
escalation loop repopulates it: increment is a no-op on an empty cache
and the reset keeps it empty. -/
theorem submitAttempts_cache_none (attempts : Nat → AttemptOutcome) :
    ∀ (ms : List Int) (idx : Nat), (submitAttempts attempts ms idx none).2 = none := by
  intro ms
  induction ms with
  | nil => intro idx; rfl
  | cons m rest ih =>
    intro idx
    simp only [submitAttempts]
    rcases attempts idx with _ | msg
    · rfl
    · by_cases hcond : (!isUnderpricedMessage (strToLower msg) || rest.isEmpty) = true
      · simp [hcond]
      · simp only [hcond, if_false, Bool.false_eq_true]
        by_cases hn : strContains (strToLower msg) "nonce too low" = true
        · simp [hn, ih]
        · simp [hn, ih]

/-- A message containing "nonce too low" is classified as retryable. -/
theorem staleMessage_isUnderpriced (msg : String)
    (h : strContains msg "nonce too low" = true) :
    isUnderpricedMessage msg = true := by
  simp [isUnderpricedMessage, h]

/-- If the escalation loop reaches attempt `k` through retryable
failures and attempt `k` fails with a stale-nonce message before the
final multiplier, the loop continues with the cache invalidated, and it
stays invalidated to the end of the call. -/
theorem submitAttempts_stale_resets (attempts : Nat → AttemptOutcome) :
    ∀ (k : Nat) (ms : List Int) (idx : Nat) (cache : Option Int),
      k + 1 < ms.length →
      (∀ j, j < k → ∃ m, attempts (idx + j) = .failed m ∧
        isUnderpricedMessage (strToLower m) = true) →
      (∃ m, attempts (idx + k) = .failed m ∧
        strContains (strToLower m) "nonce too low" = true) →
      (submitAttempts attempts ms idx cache).2 = none := by
  intro k
  induction k with
  | zero =>
    intro ms idx cache hlen hearly hstale
    rcases ms with _ | ⟨a, tail⟩
    · simp at hlen
    · obtain ⟨m, hm, hn⟩ := hstale
      rw [Nat.add_zero] at hm
      have htail : tail.isEmpty = false := by
        rcases tail with _ | _
        · simp at hlen
        · rfl
      simp only [submitAttempts, hm, staleMessage_isUnderpriced _ hn, htail,
        Bool.not_true, Bool.or_false, Bool.false_eq_true, if_false, hn, if_true]
      exact submitAttempts_cache_none attempts tail (idx + 1)
  | succ k ih =>
    intro ms idx cache hlen hearly hstale
    rcases ms with _ | ⟨a, tail⟩
    · simp at hlen
    · obtain ⟨m0, hm0, hu0⟩ := hearly 0 (Nat.succ_pos k)
      rw [Nat.add_zero] at hm0
      have htail : tail.isEmpty = false := by
        rcases tail with _ | _
        · simp at hlen
        · rfl
      simp only [submitAttempts, hm0, hu0, htail, Bool.not_true, Bool.or_false,
        Bool.false_eq_true, if_false]
      have htl : k + 1 < tail.length := by
        simp at hlen
        omega
      by_cases hn0 : strContains (strToLower m0) "nonce too low" = true
      · simp only [hn0, if_true]
        exact submitAttempts_cache_none attempts tail (idx + 1)
      · simp only [hn0, Bool.false_eq_true, if_false]
        refine ih tail (idx + 1) cache htl ?_ ?_
        · intro j hj
          obtain ⟨m, hm, hu⟩ := hearly (j + 1) (by omega)
          exact ⟨m, by rw [show idx + 1 + j = idx + (j + 1) by omega]; exact hm, hu⟩
        · obtain ⟨m, hm, hn⟩ := hstale
          exact ⟨m, by rw [show idx + 1 + k = idx + (k + 1) by omega]; exact hm, hn⟩

/-- C6 (amended): the submitter keeps one cached nonce — the first
acquisition fetches the pending transaction count from chain, a repeat
acquisition serves the cache without a chain read, N consecutive
successful submissions advance the cache to the initial value plus N,
and a stale-nonce failure on a non-final escalation attempt invalidates
the cache so the next acquisition re-reads from chain.  (On the final
attempt the error propagates with the cache left in place.) -/
theorem nonce_cache_behavior :
    (∀ c : Int, acquireNextNonce none c = (c, some c, true)) ∧
    (∀ n c : Int, acquireNextNonce (some n) c = (n, some n, false)) ∧
    (∀ (N : Nat) (v c : Int),
      (fun cache => submitOnceCache cache c)^[N] (some v) = some (v + N)) ∧
    (∀ (attempts : Nat → AttemptOutcome) (cache : Option Int) (c : Int) (k : Nat),
      k + 1 < FEE_MULTIPLIERS.length →
      (∀ j, j < k → ∃ m, attempts j = .failed m ∧ isUnderpricedMessage (strToLower m) = true) →
      (∃ m, attempts k = .failed m ∧ strContains (strToLower m) "nonce too low" = true) →
      (writeContractWithAdaptiveFees attempts cache c).2 = none) := by
  refine ⟨fun c => rfl, fun n c => rfl, ?_, ?_⟩
  · intro N
    induction N with
    | zero => intro v c; simp
    | succ N ih =>
      intro v c
      rw [Function.iterate_succ_apply]
      have hstep : submitOnceCache (some v) c = some (v + 1) := rfl
      rw [hstep, ih (v + 1) c]
      congr 1
      push_cast
      ring
  · intro attempts cache c k hk hearly hstale
    unfold writeContractWithAdaptiveFees
    exact submitAttempts_stale_resets attempts k FEE_MULTIPLIERS 0 _ hk
      (by simpa using hearly) (by simpa using hstale)

/-- Witness for C6 (amended): a first-attempt stale-nonce failure
followed by a success leaves the cache invalidated. -/
theorem nonce_cache_behavior_witness :
    (writeContractWithAdaptiveFees
      (fun idx => if idx = 0 then .failed "nonce too low" else .accepted)
      (some 5) 7).2 = none :=
  nonce_cache_behavior.2.2.2
    (fun idx => if idx = 0 then .failed "nonce too low" else .accepted)
    (some 5) 7 0 (by decide)
    (fun j hj => absurd hj (Nat.not_lt_zero j))
    ⟨"nonce too low", by decide⟩

/-- Attempt oracle that fails retryably twice and then fails with a
stale-nonce message on the final escalation step. -/
def staleFinalAttempts : Nat → AttemptOutcome := fun idx =>
  if idx = 2 then .failed "nonce too low" else .failed "fee too low"

/-- C6 counterexample: a stale-nonce error on the final escalation step
propagates without resetting the cache — the call ends with the cache
still holding the acquired nonce, so the next acquisition does not
re-read from chain, contradicting the claim's unconditional reset. -/
theorem nonce_cache_not_reset_on_final_stale :
    writeContractWithAdaptiveFees staleFinalAttempts none 7 =
      (.error "nonce too low", some 7) ∧
    acquireNextNonce (some 7) 99 = (7, some 7, false) ∧
    (some 7 : Option Int) ≠ none := by
  refine ⟨by decide, rfl, by decide⟩

/-- C7: attemptPurchaseAndListing submits a purchase only when the
resolved price is strictly positive and at most commissionPoolWei
(otherwise it returns without changing any state), and after the
purchase confirms it deducts the cost from commissionPoolWei and
persists that snapshot before any relist attempt. -/
theorem purchase_guards_and_durable_deduction :
    ∀ (env : PurchaseEnv) (s : BotState),
      (∀ c, PurchaseEvent.submitPurchase c ∈ (attemptPurchaseAndListing env s).2.1 →
        0 < c ∧ c ≤ s.commissionPoolWei) ∧
      (∀ execution, env.fetchOutcome = .ok execution →
        execution.valueWei ≤ 0 ∨ s.commissionPoolWei < execution.valueWei →
        attemptPurchaseAndListing env s = (s, [], .ok false)) ∧
      (∀ execution, env.targetConfigured = true → env.tokenIdMisconfigured = false →
        env.fetchOutcome = .ok execution → 0 < execution.valueWei →
        execution.valueWei ≤ s.commissionPoolWei → env.purchaseOk = true →
        (attemptPurchaseAndListing env s).1.commissionPoolWei =
            s.commissionPoolWei - execution.valueWei ∧
        (attemptPurchaseAndListing env s).2.1.take 2 =
          [.submitPurchase execution.valueWei,
           .persist { s with commissionPoolWei := s.commissionPoolWei - execution.valueWei }]) := by
  intro env s
  have hmain : ∀ (execution : ExecutionPayload),
      env.targetConfigured = true → env.tokenIdMisconfigured = false →
      env.fetchOutcome = .ok execution →
      ¬ execution.valueWei ≤ 0 → ¬ s.commissionPoolWei < execution.valueWei →
      env.purchaseOk = true →
      (attemptPurchaseAndListing env s).1.commissionPoolWei =
          s.commissionPoolWei - execution.valueWei ∧
      (attemptPurchaseAndListing env s).2.1.take 2 =
        [.submitPurchase execution.valueWei,
         .persist { s with commissionPoolWei := s.commissionPoolWei - execution.valueWei }] := by
    intro execution htc hmis hf hv hle hpok
    have hpool : ¬ s.commissionPoolWei ≤ 0 := by omega
    have hguard : ¬ (execution.valueWei ≤ 0 ∨ s.commissionPoolWei < execution.valueWei) := by
      omega
    cases hmeta : execution.hasMetadata
    · constructor <;>
        simp [attemptPurchaseAndListing, htc, hmis, hf, hpok, hmeta,
          if_neg hpool, if_neg hguard]
    · rcases hr : env.relistOutcome with e | o
      · constructor <;>
          simp [attemptPurchaseAndListing, htc, hmis, hf, hpok, hmeta, hr,
            if_neg hpool, if_neg hguard]
      · rcases o with _ | listing <;> constructor <;>
          simp [attemptPurchaseAndListing, htc, hmis, hf, hpok, hmeta, hr,
            if_neg hpool, if_neg hguard]
  refine ⟨?_, ?_, ?_⟩
  · intro c hc
    cases htc : env.targetConfigured
    · simp [attemptPurchaseAndListing, htc] at hc
    · cases hmis : env.tokenIdMisconfigured
      · by_cases hpool : s.commissionPoolWei ≤ 0
        · simp [attemptPurchaseAndListing, htc, hmis, hpool] at hc
        · rcases hf : env.fetchOutcome with e | execution
          · simp [attemptPurchaseAndListing, htc, hmis, if_neg hpool, hf] at hc
          · by_cases hguard : execution.valueWei ≤ 0 ∨ s.commissionPoolWei < execution.valueWei
            · simp [attemptPurchaseAndListing, htc, hmis, if_neg hpool, hf,
                if_pos hguard] at hc
            · have hg := hguard
              push_neg at hg
              obtain ⟨hv, hle⟩ := hg
              cases hpok : env.purchaseOk
              · simp [attemptPurchaseAndListing, htc, hmis, if_neg hpool, hf,
                  if_neg hguard, hpok] at hc
                omega
              · cases hmeta : execution.hasMetadata
                · simp [attemptPurchaseAndListing, htc, hmis, if_neg hpool, hf,
                    if_neg hguard, hpok, hmeta] at hc
                  omega
                · rcases hr : env.relistOutcome with e2 | o
                  · simp [attemptPurchaseAndListing, htc, hmis, if_neg hpool, hf,
                      if_neg hguard, hpok, hmeta, hr] at hc
                    omega
                  · rcases o with _ | listing <;>
                      · simp [attemptPurchaseAndListing, htc, hmis, if_neg hpool, hf,
                          if_neg hguard, hpok, hmeta, hr] at hc
                        omega
      · simp [attemptPurchaseAndListing, htc, hmis] at hc
  · intro execution hf hguard
    cases htc : env.targetConfigured
    · simp [attemptPurchaseAndListing, htc]
    · cases hmis : env.tokenIdMisconfigured
      · by_cases hpool : s.commissionPoolWei ≤ 0
        · simp [attemptPurchaseAndListing, htc, hmis, hpool]
        · simp [attemptPurchaseAndListing, htc, hmis, if_neg hpool, hf, if_pos hguard]
      · simp [attemptPurchaseAndListing, htc, hmis]
  · intro execution htc hmis hf hv hle hpok
    exact hmain execution htc hmis hf (by omega) (by omega) hpok

/-- Concrete environment exercising a confirmed purchase followed by a
successful relist. -/
def purchaseEnvEx : PurchaseEnv :=
  { targetConfigured := true
    tokenIdMisconfigured := false
    fetchOutcome := .ok { valueWei := 40, hasMetadata := true }
    purchaseOk := true
    relistOutcome := .ok (some
      { orderHash := "0xhash"
        collection := "0xc"
        tokenId := "1"
        expectedProceedsWei := 50
        listedAtMs := 10
        tokenStandard := .erc721
        listedQuantity := 1
        expectedPostSaleBalance := none }) }

def purchaseStateEx : BotState :=
  { version := 3
    commissionPoolWei := 100
    salePoolWei := 0
    pendingBurnAmount := 0
    pendingBurnCostWei := 0
    activeListings := []
    lastTaxBlock := 9 }

/-- Witness for C7: the deduction of the 40-wei cost from the 100-wei
commission pool is persisted before the relist attempt. -/
theorem purchase_guards_and_durable_deduction_witness :
    (attemptPurchaseAndListing purchaseEnvEx purchaseStateEx).1.commissionPoolWei =
        purchaseStateEx.commissionPoolWei - 40 ∧
    (attemptPurchaseAndListing purchaseEnvEx purchaseStateEx).2.1.take 2 =
      [.submitPurchase 40,
       .persist { purchaseStateEx with
         commissionPoolWei := purchaseStateEx.commissionPoolWei - 40 }] :=
  (purchase_guards_and_durable_deduction purchaseEnvEx purchaseStateEx).2.2
    { valueWei := 40, hasMetadata := true } rfl rfl rfl (by decide) (by decide) rfl

/-- With a non-negative recorded cost and pool, the capped deduction
applied by the burn phase equals subtracting `min cost pool`. -/
theorem cappedBurnDeduct_eq_min (cost pool : Int) (hc : 0 ≤ cost) (hp : 0 ≤ pool) :
    (if cappedBurnDeduct cost pool > 0 then pool - cappedBurnDeduct cost pool else pool) =
      pool - min cost pool := by
  unfold cappedBurnDeduct
  split_ifs <;> omega

/-- Successful burn completion, computed in closed form. -/
theorem completePendingBurn_success (env : BuybackEnv) (s : BotState)
    (ht : env.tokenConfigured = true) (hb : env.burnOk = true)
    (hpend : 0 < s.pendingBurnAmount) (ov : Option Int) :
    completePendingBurn env s ov =
      ⟨{ s with
          pendingBurnAmount := 0
          pendingBurnCostWei := 0
          salePoolWei :=
            if cappedBurnDeduct (ov.getD s.pendingBurnCostWei) s.salePoolWei > 0 then
              s.salePoolWei - cappedBurnDeduct (ov.getD s.pendingBurnCostWei) s.salePoolWei
            else s.salePoolWei },
        [{ s with
            pendingBurnAmount := 0
            pendingBurnCostWei := 0
            salePoolWei :=
              if cappedBurnDeduct (ov.getD s.pendingBurnCostWei) s.salePoolWei > 0 then
                s.salePoolWei - cappedBurnDeduct (ov.getD s.pendingBurnCostWei) s.salePoolWei
              else s.salePoolWei }],
        [.burnTx s.pendingBurnAmount], .ok false⟩ := by
  have hne : ¬ s.pendingBurnAmount ≤ 0 := by omega
  simp [completePendingBurn, ht, hb, hne]

/-- C3: with a pending burn recorded, performBuybackAndBurn goes
directly to the burn phase without submitting a swap; on burn
confirmation it clears both pending fields and debits salePoolWei by
the recorded cost capped at the current pool balance, persists that
snapshot, and a repeated burn completion deducts nothing further, so a
given swap's cost is deducted at most once and salePoolWei never
becomes negative. -/
theorem buyback_resumes_at_burn_phase :
    ∀ (env : BuybackEnv) (s : BotState),
      env.tokenConfigured = true → env.routerConfigured = true →
      env.wethConfigured = true → env.burnOk = true →
      0 < s.pendingBurnAmount → 0 ≤ s.pendingBurnCostWei → 0 ≤ s.salePoolWei →
      (performBuybackAndBurn env s).txs = [.burnTx s.pendingBurnAmount] ∧
      (∀ a, BuybackTx.swapTx a ∉ (performBuybackAndBurn env s).txs) ∧
      (performBuybackAndBurn env s).state.pendingBurnAmount = 0 ∧
      (performBuybackAndBurn env s).state.pendingBurnCostWei = 0 ∧
      (performBuybackAndBurn env s).state.salePoolWei =
        s.salePoolWei - min s.pendingBurnCostWei s.salePoolWei ∧
      0 ≤ (performBuybackAndBurn env s).state.salePoolWei ∧
      (performBuybackAndBurn env s).saves = [(performBuybackAndBurn env s).state] ∧
      (performBuybackAndBurn env s).outcome = .ok true ∧
      completePendingBurn env (performBuybackAndBurn env s).state none =
        ⟨(performBuybackAndBurn env s).state, [], [], .ok false⟩ := by
  intro env s ht hr hw hb hpend hcost hpool
  have hrun : performBuybackAndBurn env s =
      (let r := completePendingBurn env s none
       { r with outcome := r.outcome.map fun _ => true }) := by
    simp [performBuybackAndBurn, ht, hr, hw, hpend]
  rw [hrun, completePendingBurn_success env s ht hb hpend none]
  have hsale :
      (if cappedBurnDeduct ((none : Option Int).getD s.pendingBurnCostWei) s.salePoolWei > 0 then
          s.salePoolWei - cappedBurnDeduct ((none : Option Int).getD s.pendingBurnCostWei) s.salePoolWei
        else s.salePoolWei) = s.salePoolWei - min s.pendingBurnCostWei s.salePoolWei := by
    simpa using cappedBurnDeduct_eq_min s.pendingBurnCostWei s.salePoolWei hcost hpool
  refine ⟨rfl, ?_, rfl, rfl, ?_, ?_, rfl, rfl, ?_⟩
  · intro a
    simp
  · simpa using hsale
  · simp only [hsale]
    omega
  · simp [completePendingBurn]

/-- Concrete environment with a confirmed burn and a pending burn of 9
tokens recorded at a cost of 30 wei against a 100-wei sale pool. -/
def buybackEnvEx : BuybackEnv :=
  { tokenConfigured := true
    routerConfigured := true
    wethConfigured := true
    burnOk := true
    routerAllowed := true
    balanceBefore := 0
    balancePoll := fun _ => 0
    swapOk := true
    buybackChunkWei := none }

def buybackStateEx : BotState :=
  { version := 3
    commissionPoolWei := 0
    salePoolWei := 100
    pendingBurnAmount := 9
    pendingBurnCostWei := 30
    activeListings := []
    lastTaxBlock := 0 }

/-- Witness for C3: resuming with the pending burn of `buybackStateEx`
submits only the burn transfer and debits the pool by the recorded cost. -/
theorem buyback_resumes_at_burn_phase_witness :
    (performBuybackAndBurn buybackEnvEx buybackStateEx).txs = [.burnTx 9] ∧
    (performBuybackAndBurn buybackEnvEx buybackStateEx).state.salePoolWei = 100 - min 30 100 :=
  have h := buyback_resumes_at_burn_phase buybackEnvEx buybackStateEx rfl rfl rfl rfl
    (by decide) (by decide) (by decide)
  ⟨h.1, h.2.2.2.2.1⟩

/-- Sum of the amounts surviving a filter, as a sum of guarded terms. -/
theorem sumAmount_filter_ite (p : TaxLog → Bool) (es : List TaxLog) :
    ((es.filter p).map (·.amount)).sum = (es.map fun e => if p e then e.amount else 0).sum := by
  induction es with
  | nil => rfl
  | cons e es ih => by_cases h : p e <;> simp [List.filter_cons, h, ih]

/-- An inclusive block range with nothing in it collects nothing. -/
theorem sumMatchingIn_nil_of_lt (t : String) (es : List TaxLog) (lo hi : Int)
    (h : hi < lo) : sumMatchingIn t es lo hi = 0 := by
  unfold sumMatchingIn getLogsInRange
  rw [List.filter_filter]
  have : (es.filter fun e =>
      taxLogMatches t e && (decide (lo ≤ e.blockNumber) && decide (e.blockNumber ≤ hi))) = [] := by
    rw [List.filter_eq_nil_iff]
    intro e he
    simp only [Bool.and_eq_true, decide_eq_true_eq, not_and]
    intro hm hrange
    omega
  rw [this]
  rfl

/-- Splitting an inclusive scan range at `mid` splits the collected sum. -/
theorem sumMatchingIn_split (t : String) (es : List TaxLog) (lo mid hi : Int)
    (h1 : lo ≤ mid + 1) (h2 : mid ≤ hi) :
    sumMatchingIn t es lo hi = sumMatchingIn t es lo mid + sumMatchingIn t es (mid + 1) hi := by
  unfold sumMatchingIn getLogsInRange
  rw [List.filter_filter, List.filter_filter, List.filter_filter,
    sumAmount_filter_ite, sumAmount_filter_ite, sumAmount_filter_ite, ← List.sum_map_add]
  refine congrArg List.sum (List.map_congr_left ?_)
  intro e he
  cases hm : taxLogMatches t e
  · simp [hm]
  · by_cases hlo : lo ≤ e.blockNumber
    · by_cases hmid : e.blockNumber ≤ mid
      · have hhi : e.blockNumber ≤ hi := by omega
        have hmid1 : ¬ (mid + 1 ≤ e.blockNumber) := by omega
        simp [hm, hlo, hmid, hhi, hmid1]
      · by_cases hhi : e.blockNumber ≤ hi
        · have hmid1 : mid + 1 ≤ e.blockNumber := by omega
          simp [hm, hlo, hmid, hhi, hmid1]
        · simp [hm, hlo, hmid, hhi]
    · have hmid1 : ¬ (mid + 1 ≤ e.blockNumber) := by omega
      simp [hm, hlo, hmid1]

/-- With enough fuel, the chunked scan loop collects exactly the
single-pass sum over `(cursor .. latest)`. -/
theorem taxScanAux_eq (es : List TaxLog) (t : String) (latest : Int) :
    ∀ (fuel : Nat) (cursor : Int),
      (latest + 1 - cursor).toNat ≤ 10 * fuel →
      taxScanAux es t latest fuel cursor = sumMatchingIn t es cursor latest := by
  intro fuel
  induction fuel with
  | zero =>
    intro cursor h
    have hlt : latest < cursor := by omega
    simp only [taxScanAux]
    exact (sumMatchingIn_nil_of_lt t es cursor latest hlt).symm
  | succ fuel ih =>
    intro cursor h
    simp only [taxScanAux]
    by_cases hc : cursor ≤ latest
    · rw [if_pos hc]
      by_cases hcap : cursor + (MAX_LOG_SPAN - 1) > latest
      · rw [if_pos hcap]
        have hrec : (latest + 1 - (latest + 1)).toNat ≤ 10 * fuel := by omega
        rw [ih (latest + 1) hrec, sumMatchingIn_nil_of_lt t es (latest + 1) latest (by omega)]
        rw [sumMatchingIn_split t es cursor latest latest (by omega) le_rfl] at *
        rw [sumMatchingIn_nil_of_lt t es (latest + 1) latest (by omega)]
        rfl
      · rw [if_neg hcap]
        have hle : cursor + (MAX_LOG_SPAN - 1) ≤ latest := by omega
        have hrec : (latest + 1 - (cursor + (MAX_LOG_SPAN - 1) + 1)).toNat ≤ 10 * fuel := by
          simp only [MAX_LOG_SPAN] at *
          omega
        rw [ih (cursor + (MAX_LOG_SPAN - 1) + 1) hrec]
        rw [sumMatchingIn_split t es cursor (cursor + (MAX_LOG_SPAN - 1)) latest
          (by simp only [MAX_LOG_SPAN]; omega) hle]
        rfl
    · rw [if_neg hc]
      exact (sumMatchingIn_nil_of_lt t es cursor latest (by omega)).symm

/-- The scan loop entry point computes the single-pass matching sum. -/
theorem taxScan_eq (es : List TaxLog) (t : String) (cursor latest : Int) :
    taxScan es t cursor latest = sumMatchingIn t es cursor latest :=
  taxScanAux_eq es t latest ((latest + 1 - cursor).toNat + 1) cursor (by omega)

/-- Every amount the scan counts is positive, so the collected sum is
non-negative. -/
theorem sumMatchingIn_nonneg (t : String) (es : List TaxLog) (lo hi : Int) :
    0 ≤ sumMatchingIn t es lo hi := by
  unfold sumMatchingIn
  refine List.sum_nonneg ?_
  intro x hx
  obtain ⟨e, he, hx⟩ := List.mem_map.mp hx
  have hm := (List.mem_filter.mp he).2
  simp only [taxLogMatches, Bool.and_eq_true, decide_eq_true_eq] at hm
  omega

/-- C4 (amended): lastTaxBlock never rewinds, and whenever a scan runs
(token configured, lastTaxBlock nonzero and below the current head) it
is advanced to the head and the state persisted regardless of whether
any matching events were found, with the collected sum — the sum of
matching event amounts in `(lastTaxBlock+1 .. head)` — added to
commissionPoolWei before that same persist.  When lastTaxBlock is zero
the collector instead initializes it to the head and persists without
scanning. -/
theorem taxCollector_monotone_and_persists :
    ∀ (env : TaxEnv) (s : BotState), 0 ≤ env.latest →
      s.lastTaxBlock ≤ (collectNewTaxProceeds env s).1.lastTaxBlock ∧
      (env.tokenConfigured = true → s.lastTaxBlock ≠ 0 → s.lastTaxBlock < env.latest →
        (collectNewTaxProceeds env s).1.lastTaxBlock = env.latest ∧
        (collectNewTaxProceeds env s).2.1 = some (collectNewTaxProceeds env s).1 ∧
        (collectNewTaxProceeds env s).1.commissionPoolWei =
          s.commissionPoolWei +
            sumMatchingIn env.treasury env.events (s.lastTaxBlock + 1) env.latest) ∧
      (env.tokenConfigured = true → s.lastTaxBlock = 0 →
        (collectNewTaxProceeds env s).1 = { s with lastTaxBlock := env.latest } ∧
        (collectNewTaxProceeds env s).2.1 = some (collectNewTaxProceeds env s).1) := by
  intro env s hlatest
  cases htok : env.tokenConfigured
  · refine ⟨?_, ?_, ?_⟩
    · simp [collectNewTaxProceeds, htok]
    · intro h
      exact Bool.noConfusion h
    · intro h
      exact Bool.noConfusion h
  · by_cases hzero : s.lastTaxBlock = 0
    · refine ⟨?_, ?_, ?_⟩
      · simp only [collectNewTaxProceeds, htok, hzero, Bool.not_true, Bool.false_eq_true,
          if_false, if_true]
        omega
      · intro _ hnz
        exact absurd hzero hnz
      · intro _ _
        constructor <;> simp [collectNewTaxProceeds, htok, hzero]
    · by_cases hhead : s.lastTaxBlock ≥ env.latest
      · refine ⟨?_, ?_, ?_⟩
        · simp [collectNewTaxProceeds, htok, hzero, hhead]
        · intro _ _ hlt
          omega
        · intro _ hz
          exact absurd hz hzero
      · have hlt : s.lastTaxBlock < env.latest := by omega
        have hsum := taxScan_eq env.events env.treasury (s.lastTaxBlock + 1) env.latest
        have hnn := sumMatchingIn_nonneg env.treasury env.events (s.lastTaxBlock + 1) env.latest
        by_cases hpos : 0 < sumMatchingIn env.treasury env.events (s.lastTaxBlock + 1) env.latest
        · refine ⟨?_, ?_, ?_⟩
          · simp only [collectNewTaxProceeds, htok, hzero, hhead, hsum, hpos, Bool.not_true,
              Bool.false_eq_true, if_false, if_true, gt_iff_lt]
            omega
          · intro _ _ _
            refine ⟨?_, ?_, ?_⟩ <;>
              simp [collectNewTaxProceeds, htok, hzero, hhead, hsum, hpos]
          · intro _ hz
            exact absurd hz hzero
        · have hz : sumMatchingIn env.treasury env.events (s.lastTaxBlock + 1) env.latest = 0 := by
            omega
          refine ⟨?_, ?_, ?_⟩
          · simp only [collectNewTaxProceeds, htok, hzero, hhead, hsum, hpos, Bool.not_true,
              Bool.false_eq_true, if_false, if_true, gt_iff_lt]
            omega
          · intro _ _ _
            refine ⟨?_, ?_, ?_⟩ <;>
              simp [collectNewTaxProceeds, htok, hzero, hhead, hsum, hpos, hz]
          · intro _ hz2
            exact absurd hz2 hzero

/-- Environment for the C4 counterexample: one matching event in block 3
with head block 5, scanned from a ledger whose lastTaxBlock is 0. -/
def taxEnvEx : TaxEnv :=
  { tokenConfigured := true
    latest := 5
    events := [{ blockNumber := 3, recipient := "0xAB", amount := 100 }]
    treasury := "0xab" }

def taxStateZeroEx : BotState :=
  { version := 3
    commissionPoolWei := 0
    salePoolWei := 0
    pendingBurnAmount := 0
    pendingBurnCostWei := 0
    activeListings := []
    lastTaxBlock := 0 }

/-- C4 counterexample: with `lastTaxBlock = 0` (which is below the
current head, so by the claim's reading a scan runs) the collector
initializes `lastTaxBlock` to the head without scanning, so the
matching 100-wei event in the range is never added to the commission
pool. -/
theorem taxCollector_zero_start_skips_scan :
    taxStateZeroEx.lastTaxBlock < taxEnvEx.latest ∧
    taxEnvEx.tokenConfigured = true ∧
    sumMatchingIn taxEnvEx.treasury taxEnvEx.events
      (taxStateZeroEx.lastTaxBlock + 1) taxEnvEx.latest = 100 ∧
    (collectNewTaxProceeds taxEnvEx taxStateZeroEx).1.lastTaxBlock = taxEnvEx.latest ∧
    (collectNewTaxProceeds taxEnvEx taxStateZeroEx).1.commissionPoolWei ≠
      taxStateZeroEx.commissionPoolWei +
        sumMatchingIn taxEnvEx.treasury taxEnvEx.events
          (taxStateZeroEx.lastTaxBlock + 1) taxEnvEx.latest := by
  decide

/-- Witness for C4 (amended) on a nonzero starting block: scanning
blocks 2..5 collects the matching event and persists. -/
theorem taxCollector_monotone_and_persists_witness :
    (collectNewTaxProceeds taxEnvEx { taxStateZeroEx with lastTaxBlock := 1 }).1.lastTaxBlock =
        taxEnvEx.latest ∧
    (collectNewTaxProceeds taxEnvEx { taxStateZeroEx with lastTaxBlock := 1 }).2.1 =
        some (collectNewTaxProceeds taxEnvEx { taxStateZeroEx with lastTaxBlock := 1 }).1 ∧
    (collectNewTaxProceeds taxEnvEx { taxStateZeroEx with lastTaxBlock := 1 }).1.commissionPoolWei =
        taxStateZeroEx.commissionPoolWei +
          sumMatchingIn taxEnvEx.treasury taxEnvEx.events 2 taxEnvEx.latest :=
  (taxCollector_monotone_and_persists taxEnvEx
      { taxStateZeroEx with lastTaxBlock := 1 } (by decide)).2.1
    rfl (by decide) (by decide)

/-- The truncated proportional share one non-final consideration item
receives; TypeScript bigint division truncates toward zero. -/
def truncShare (originalTotal newTotal : Int) (item : ConsiderationBlueprintItem) : Int :=
  Int.tdiv (newTotal * item.originalAmount) originalTotal

theorem scaleAux_length (t : String) (O T : Int) :
    ∀ (l : List ConsiderationBlueprintItem) (rem : Int),
      (scaleAux t O T l rem).length = l.length := by
  intro l
  induction l with
  | nil => intro rem; rfl
  | cons x xs ih => intro rem; simp [scaleAux, ih]

/-- One unfolding step of the rescaling loop. -/
theorem scaleAux_cons (t : String) (O T : Int) (x : ConsiderationBlueprintItem)
    (rest : List ConsiderationBlueprintItem) (rem : Int) :
    scaleAux t O T (x :: rest) rem =
      { itemType := x.itemType
        token := x.token
        identifierOrCriteria := x.identifierOrCriteria
        amount :=
          if rest.isEmpty then (if rem > 0 then rem else 0)
          else Int.tdiv (T * x.originalAmount) O
        recipient := if x.isSellerProceeds then t else x.recipient } ::
        scaleAux t O T rest
          (if rest.isEmpty then rem else rem - Int.tdiv (T * x.originalAmount) O) := rfl

theorem scaleAux_map_amount (t : String) (O T : Int) :
    ∀ (l : List ConsiderationBlueprintItem) (rem : Int), l ≠ [] →
      (scaleAux t O T l rem).map (·.amount) =
        l.dropLast.map (truncShare O T) ++
          [if rem - (l.dropLast.map (truncShare O T)).sum > 0 then
            rem - (l.dropLast.map (truncShare O T)).sum else 0] := by
  intro l
  induction l with
  | nil => intro rem h; exact absurd rfl h
  | cons x xs ih =>
    intro rem _
    rcases xs with _ | ⟨y, ys⟩
    · simp [scaleAux]
    · have hne : (y :: ys) ≠ [] := by simp
      have hrec := ih (rem - truncShare O T x) hne
      rw [scaleAux_cons]
      simp only [List.isEmpty_cons, Bool.false_eq_true, if_false, List.map_cons]
      rw [show (rem - Int.tdiv (T * x.originalAmount) O) = rem - truncShare O T x from rfl,
        hrec]
      simp only [List.dropLast_cons₂, List.map_cons, List.sum_cons, List.cons_append]
      have harith : rem - truncShare O T x - ((y :: ys).dropLast.map (truncShare O T)).sum =
          rem - (truncShare O T x + ((y :: ys).dropLast.map (truncShare O T)).sum) := by
        ring
      rw [harith]
      rfl

/-- The truncated shares of all non-final items never exceed the target
total when the original total is the (nonzero) sum of the non-negative
original amounts. -/
theorem sum_front_truncShare_le (items : List ConsiderationBlueprintItem) (T : Int)
    (hpos : ∀ i ∈ items, 0 ≤ i.originalAmount) (hT : 0 ≤ T)
    (hO : (items.map (·.originalAmount)).sum ≠ 0) :
    (items.dropLast.map (truncShare ((items.map (·.originalAmount)).sum) T)).sum ≤ T := by
  have hOnn : 0 ≤ (items.map (·.originalAmount)).sum := by
    refine List.sum_nonneg ?_
    intro x hx
    obtain ⟨i, hi, rfl⟩ := List.mem_map.mp hx
    exact hpos i hi
  have hOpos : 0 < (items.map (·.originalAmount)).sum := lt_of_le_of_ne hOnn (Ne.symm hO)
  have hne : items ≠ [] := by
    intro h
    rw [h] at hO
    exact hO rfl
  have hfrontpos : ∀ i ∈ items.dropLast, 0 ≤ i.originalAmount := fun i hi =>
    hpos i (List.dropLast_subset _ hi)
  have hfront : ∀ i ∈ items.dropLast,
      truncShare ((items.map (·.originalAmount)).sum) T i =
        (T * i.originalAmount) / ((items.map (·.originalAmount)).sum) := fun i hi =>
    Int.tdiv_eq_ediv (mul_nonneg hT (hfrontpos i hi)) hOnn
  rw [List.map_congr_left hfront]
  have h1 : ((items.dropLast.map fun i =>
      (T * i.originalAmount) / ((items.map (·.originalAmount)).sum)).sum) *
        ((items.map (·.originalAmount)).sum) ≤
      (items.dropLast.map fun i => T * i.originalAmount).sum := by
    rw [← List.sum_map_mul_right]
    exact List.sum_le_sum fun i _ => Int.ediv_mul_le _ (ne_of_gt hOpos)
  have h2 : (items.dropLast.map fun i => T * i.originalAmount).sum =
      T * (items.dropLast.map (·.originalAmount)).sum := by
    rw [← List.sum_map_mul_left]
  have h3 : (items.dropLast.map (·.originalAmount)).sum ≤
      (items.map (·.originalAmount)).sum := by
    have hdecomp := List.dropLast_concat_getLast hne
    have hlast : 0 ≤ (items.getLast hne).originalAmount :=
      hpos _ (List.getLast_mem hne)
    conv_rhs => rw [← hdecomp]
    rw [List.map_append, List.sum_append]
    simp
    omega
  have h4 : T * (items.dropLast.map (·.originalAmount)).sum ≤
      T * ((items.map (·.originalAmount)).sum) :=
    mul_le_mul_of_nonneg_left h3 hT
  have h5 := le_trans h1 (le_trans (le_of_eq h2) h4)
  exact le_of_mul_le_mul_right h5 hOpos

/-- C2: for every consideration-item list whose non-negative original
amounts have nonzero sum (the original total) and every nonzero
non-negative target total, scaleConsiderationAmounts returns a list of
the same length whose amounts sum exactly to the target, each item
receiving the floor of its proportional share except the last, which
receives the remaining difference. -/
theorem scaleConsiderationAmounts_conservation :
    ∀ (treasury : String) (items : List ConsiderationBlueprintItem) (newTotal : Int),
      (∀ i ∈ items, 0 ≤ i.originalAmount) → 0 ≤ newTotal → newTotal ≠ 0 →
      (items.map (·.originalAmount)).sum ≠ 0 →
      (scaleConsiderationAmounts treasury items
          ((items.map (·.originalAmount)).sum) newTotal).length = items.length ∧
      ((scaleConsiderationAmounts treasury items
          ((items.map (·.originalAmount)).sum) newTotal).map (·.amount)).sum = newTotal ∧
      (scaleConsiderationAmounts treasury items
          ((items.map (·.originalAmount)).sum) newTotal).map (·.amount) =
        items.dropLast.map (truncShare ((items.map (·.originalAmount)).sum) newTotal) ++
          [newTotal - (items.dropLast.map
            (truncShare ((items.map (·.originalAmount)).sum) newTotal)).sum] ∧
      (∀ i ∈ items, truncShare ((items.map (·.originalAmount)).sum) newTotal i =
        (newTotal * i.originalAmount) / ((items.map (·.originalAmount)).sum)) := by
  intro treasury items newTotal hpos hT hT0 hO
  have hOnn : 0 ≤ (items.map (·.originalAmount)).sum := by
    refine List.sum_nonneg ?_
    intro x hx
    obtain ⟨i, hi, rfl⟩ := List.mem_map.mp hx
    exact hpos i hi
  have hne : items ≠ [] := by
    intro h
    rw [h] at hO
    exact hO rfl
  have hcond : ¬ ((items.map (·.originalAmount)).sum = 0 ∨ newTotal = 0) := by
    push_neg
    exact ⟨hO, hT0⟩
  have hunfold : scaleConsiderationAmounts treasury items
      ((items.map (·.originalAmount)).sum) newTotal =
      scaleAux treasury ((items.map (·.originalAmount)).sum) newTotal items newTotal := by
    rw [scaleConsiderationAmounts, if_neg hcond]
  have hamounts := scaleAux_map_amount treasury
    ((items.map (·.originalAmount)).sum) newTotal items newTotal hne
  have hfle := sum_front_truncShare_le items newTotal hpos hT hO
  have hlastval : (if newTotal - (items.dropLast.map
      (truncShare ((items.map (·.originalAmount)).sum) newTotal)).sum > 0 then
        newTotal - (items.dropLast.map
          (truncShare ((items.map (·.originalAmount)).sum) newTotal)).sum
      else 0) =
      newTotal - (items.dropLast.map
        (truncShare ((items.map (·.originalAmount)).sum) newTotal)).sum := by
    split_ifs <;> omega
  rw [hlastval] at hamounts
  refine ⟨?_, ?_, ?_, ?_⟩
  · rw [hunfold, scaleAux_length]
  · rw [hunfold, hamounts, List.sum_append]
    simp
  · rw [hunfold, hamounts]
  · intro i hi
    exact Int.tdiv_eq_ediv (mul_nonneg hT (hpos i hi)) hOnn

/-- Concrete consideration blueprint with a seller line of 7, a fee line
of 2 and a royalty line of 1 (original total 10). -/
def considerationItemsEx : List ConsiderationBlueprintItem :=
  [{ itemType := 0, token := "0x0", identifierOrCriteria := 0, originalAmount := 7,
     recipient := "0xseller", isSellerProceeds := true },
   { itemType := 0, token := "0x0", identifierOrCriteria := 0, originalAmount := 2,
     recipient := "0xfee", isSellerProceeds := false },
   { itemType := 0, token := "0x0", identifierOrCriteria := 0, originalAmount := 1,
     recipient := "0xroyalty", isSellerProceeds := false }]

/-- Witness for C2 at target total 13 over original total 10: the
amounts are 9, 2 and the remainder 2, summing exactly to 13. -/
theorem scaleConsiderationAmounts_conservation_witness :
    (scaleConsiderationAmounts "0xtreasury" considerationItemsEx
        ((considerationItemsEx.map (·.originalAmount)).sum) 13).length =
      considerationItemsEx.length ∧
    ((scaleConsiderationAmounts "0xtreasury" considerationItemsEx
        ((considerationItemsEx.map (·.originalAmount)).sum) 13).map (·.amount)).sum = 13 :=
  have h := scaleConsiderationAmounts_conservation "0xtreasury" considerationItemsEx 13
    (by decide) (by decide) (by decide) (by decide)
  ⟨h.1, h.2.1⟩

/-- One unfolding step of the reconciliation loop in the carried-over
case (per-tick cap already exhausted). -/
theorem reconLoop_cons_capped (t : String) (cap : Nat) (reads : ListingReads)
    (x : ActiveListingState) (xs : List ActiveListingState) (pos checked : Nat)
    (h : checked ≥ cap) :
    reconLoop t cap reads (x :: xs) pos checked =
      ((x :: (reconLoop t cap reads xs (pos + 1) checked).1),
        (reconLoop t cap reads xs (pos + 1) checked).2) := by
  simp [reconLoop, h]

/-- The reconciliation loop, characterized: starting at position `pos`
with `min pos cap` listings already checked, the kept listings are
exactly those whose positioned sale test fails, and the captured
proceeds are the sum of `expectedProceedsWei` over those whose test
succeeds. -/
theorem reconLoop_spec (t : String) (cap : Nat) (reads : ListingReads) :
    ∀ (l : List ActiveListingState) (pos : Nat),
      reconLoop t cap reads l pos (min pos cap) =
        (((l.enumFrom pos).filter fun p => !saleDetected t cap reads p.1 p.2).map Prod.snd,
         (((l.enumFrom pos).filter fun p => saleDetected t cap reads p.1 p.2).map
            fun p => p.2.expectedProceedsWei).sum) := by
  intro l
  induction l with
  | nil => intro pos; simp [reconLoop, List.enumFrom]
  | cons x xs ih =>
    intro pos
    by_cases hcap : pos < cap
    · have hmin : min pos cap = pos := by omega
      have hmin2 : min (pos + 1) cap = pos + 1 := by omega
      have hnotge : ¬ pos ≥ cap := by omega
      have ihx := ih (pos + 1)
      rw [hmin2] at ihx
      have hrec : reconLoop t cap reads (x :: xs) pos (min pos cap) =
          (let r := reconLoop t cap reads xs (pos + 1) (pos + 1)
           match reads pos with
           | .error _ => (x :: r.1, r.2)
           | .ok v =>
             match x.tokenStandard, v with
             | .erc1155, .balanceIs balance =>
               if balance > x.expectedPostSaleBalance.getD 0 then (x :: r.1, r.2)
               else (r.1, r.2 + x.expectedProceedsWei)
             | .erc1155, .ownerIs _ => (x :: r.1, r.2)
             | .erc721, .ownerIs owner =>
               if strToLower owner == strToLower t then (x :: r.1, r.2)
               else (r.1, r.2 + x.expectedProceedsWei)
             | .erc721, .balanceIs _ => (x :: r.1, r.2)) := by
        rw [hmin]
        simp only [reconLoop, hnotge, if_false, Bool.false_eq_true]
      rw [hrec, ihx]
      rcases hr : reads pos with e | v
      · have hsd : saleDetected t cap reads pos x = false := by
          simp [saleDetected, hr]
        simp [List.enumFrom, List.filter_cons, hsd]
      · cases v with
        | ownerIs owner =>
          cases hts : x.tokenStandard
          · by_cases hown : (strToLower owner == strToLower t) = true
            · have hsd : saleDetected t cap reads pos x = false := by
                simp [saleDetected, hr, hts, hown]
              simp [List.enumFrom, List.filter_cons, hsd, hown, hts]
            · have hown2 : (strToLower owner == strToLower t) = false := by
                rwa [Bool.not_eq_true] at hown
              have hsd : saleDetected t cap reads pos x = true := by
                simp [saleDetected, hr, hts, hown2, hcap]
              simp only [List.enumFrom, List.filter_cons, hsd, hown2, Bool.not_true,
                Bool.false_eq_true, if_false, if_true, List.map_cons, List.sum_cons, hts,
                Prod.mk.injEq]
              exact ⟨trivial, by omega⟩
          · have hsd : saleDetected t cap reads pos x = false := by
              simp [saleDetected, hr, hts]
            simp [List.enumFrom, List.filter_cons, hsd, hts]
        | balanceIs balance =>
          cases hts : x.tokenStandard
          · have hsd : saleDetected t cap reads pos x = false := by
              simp [saleDetected, hr, hts]
            simp [List.enumFrom, List.filter_cons, hsd, hts]
          · by_cases hbal : balance > x.expectedPostSaleBalance.getD 0
            · have hble : ¬ (balance ≤ x.expectedPostSaleBalance.getD 0) := by omega
              have hsd : saleDetected t cap reads pos x = false := by
                simp [saleDetected, hr, hts, hble]
              simp [List.enumFrom, List.filter_cons, hsd, hbal, hts]
            · have hble : balance ≤ x.expectedPostSaleBalance.getD 0 := by omega
              have hsd : saleDetected t cap reads pos x = true := by
                simp [saleDetected, hr, hts, hble, hcap]
              simp only [List.enumFrom, List.filter_cons, hsd, Bool.not_true,
                Bool.false_eq_true, if_false, if_true, List.map_cons, List.sum_cons, hts,
                Prod.mk.injEq, hbal]
              exact ⟨trivial, by omega⟩
    · have hmin : min pos cap = cap := by omega
      have hmin2 : min (pos + 1) cap = cap := by omega
      have hge : (cap ≥ cap) = True := by simp
      have ihx := ih (pos + 1)
      rw [hmin2] at ihx
      rw [hmin, reconLoop_cons_capped t cap reads x xs pos cap (le_refl cap), ihx]
      have hsd : saleDetected t cap reads pos x = false := by
        simp only [saleDetected]
        have : decide (pos < cap) = false := by
          simp
          omega
        rw [this]
        simp
      simp [List.enumFrom, List.filter_cons, hsd]

/-- C5: in reconcileListings the kept listings are exactly those whose
per-position sale test fails — so a checked single-owner listing whose
on-chain owner left the treasury is removed and credited exactly once,
a listing whose read throws is retained unchanged, and listings beyond
the per-tick cap are carried over — with salePoolWei credited by the
captured sum and persisted only when that sum is positive. -/
theorem reconciler_characterization :
    ∀ (t : String) (cap : Nat) (reads : ListingReads) (s : BotState),
      (reconcileListings t cap reads s).1.activeListings =
        ((s.activeListings.enum.filter fun p => !saleDetected t cap reads p.1 p.2).map
          Prod.snd) ∧
      (reconcileListings t cap reads s).2.2 =
        ((s.activeListings.enum.filter fun p => saleDetected t cap reads p.1 p.2).map
          fun p => p.2.expectedProceedsWei).sum ∧
      (reconcileListings t cap reads s).1.salePoolWei =
        (if 0 < (reconcileListings t cap reads s).2.2 then
          s.salePoolWei + (reconcileListings t cap reads s).2.2 else s.salePoolWei) ∧
      (reconcileListings t cap reads s).2.1 =
        (if 0 < (reconcileListings t cap reads s).2.2 then
          some (reconcileListings t cap reads s).1 else none) ∧
      (∀ p ∈ s.activeListings.enum, reads p.1 = .error () →
        p.2 ∈ (reconcileListings t cap reads s).1.activeListings) ∧
      (∀ p ∈ s.activeListings.enum, cap ≤ p.1 →
        p.2 ∈ (reconcileListings t cap reads s).1.activeListings) := by
  intro t cap reads s
  have hmin : min 0 cap = 0 := by omega
  have hspec := reconLoop_spec t cap reads s.activeListings 0
  rw [hmin] at hspec
  have henum : s.activeListings.enumFrom 0 = s.activeListings.enum := rfl
  rw [henum] at hspec
  have hmain :
      (reconcileListings t cap reads s).1.activeListings =
        ((s.activeListings.enum.filter fun p => !saleDetected t cap reads p.1 p.2).map
          Prod.snd) ∧
      (reconcileListings t cap reads s).2.2 =
        ((s.activeListings.enum.filter fun p => saleDetected t cap reads p.1 p.2).map
          fun p => p.2.expectedProceedsWei).sum ∧
      (reconcileListings t cap reads s).1.salePoolWei =
        (if 0 < (reconcileListings t cap reads s).2.2 then
          s.salePoolWei + (reconcileListings t cap reads s).2.2 else s.salePoolWei) ∧
      (reconcileListings t cap reads s).2.1 =
        (if 0 < (reconcileListings t cap reads s).2.2 then
          some (reconcileListings t cap reads s).1 else none) := by
    by_cases hemp : s.activeListings.isEmpty = true
    · have hnil : s.activeListings = [] := by
        rwa [List.isEmpty_iff] at hemp
      refine ⟨?_, ?_, ?_, ?_⟩ <;> simp [reconcileListings, hemp, hnil]
    · simp only [reconcileListings, hemp, Bool.false_eq_true, if_false, hspec, gt_iff_lt]
      refine ⟨?_, ?_, ?_, ?_⟩ <;> split_ifs <;> simp
  refine ⟨hmain.1, hmain.2.1, hmain.2.2.1, hmain.2.2.2, ?_, ?_⟩
  · intro p hp herr
    have hsd : saleDetected t cap reads p.1 p.2 = false := by
      simp [saleDetected, herr]
    rw [hmain.1]
    exact List.mem_map_of_mem _ (List.mem_filter.mpr ⟨hp, by simp [hsd]⟩)
  · intro p hp hcap
    have hsd : saleDetected t cap reads p.1 p.2 = false := by
      have : ¬ p.1 < cap := by omega
      simp [saleDetected, this]
    rw [hmain.1]
    exact List.mem_map_of_mem _ (List.mem_filter.mpr ⟨hp, by simp [hsd]⟩)

/-- C10: reconcileListings persists exactly when the captured proceeds
are strictly positive, so a tick whose detected sales all carry zero
expectedProceedsWei removes those listings from the in-memory set
without any save — the removal is not durable across a restart. -/
theorem reconciler_zero_proceeds_removal_not_persisted :
    ∀ (t : String) (cap : Nat) (reads : ListingReads) (s : BotState),
      ((reconcileListings t cap reads s).2.1 = none ↔
        (reconcileListings t cap reads s).2.2 ≤ 0) ∧
      ((∀ p ∈ s.activeListings.enum, saleDetected t cap reads p.1 p.2 = true →
          p.2.expectedProceedsWei = 0) →
        (reconcileListings t cap reads s).2.1 = none ∧
        (reconcileListings t cap reads s).1.salePoolWei = s.salePoolWei ∧
        (reconcileListings t cap reads s).1.activeListings =
          ((s.activeListings.enum.filter fun p => !saleDetected t cap reads p.1 p.2).map
            Prod.snd)) := by
  intro t cap reads s
  have hmin : min 0 cap = 0 := by omega
  have hspec := reconLoop_spec t cap reads s.activeListings 0
  rw [hmin] at hspec
  have henum : s.activeListings.enumFrom 0 = s.activeListings.enum := rfl
  rw [henum] at hspec
  by_cases hemp : s.activeListings.isEmpty = true
  · have hnil : s.activeListings = [] := by
      rwa [List.isEmpty_iff] at hemp
    constructor
    · simp [reconcileListings, hemp]
    · intro _
      refine ⟨?_, ?_, ?_⟩ <;> simp [reconcileListings, hemp, hnil]
  · constructor
    · simp only [reconcileListings, hemp, Bool.false_eq_true, if_false, hspec, gt_iff_lt]
      split_ifs with h
      · simp
        omega
      · simp
        omega
    · intro hzero
      have hsum :
          ((s.activeListings.enum.filter fun p => saleDetected t cap reads p.1 p.2).map
            fun p => p.2.expectedProceedsWei).sum = 0 := by
        refine List.sum_eq_zero ?_
        intro x hx
        obtain ⟨p, hpmem, rfl⟩ := List.mem_map.mp hx
        have hpf := List.mem_filter.mp hpmem
        exact hzero p hpf.1 hpf.2
      have hnotpos :
          ¬ ((s.activeListings.enum.filter fun p => saleDetected t cap reads p.1 p.2).map
            fun p => p.2.expectedProceedsWei).sum > 0 := by
        omega
      refine ⟨?_, ?_, ?_⟩ <;>
        simp [reconcileListings, hemp, hspec, hnotpos]

/-- Reads oracle whose every listing read reports an owner other than
the treasury. -/
def reconSoldReads : ListingReads := fun _ => .ok (.ownerIs "0xother")

/-- Reads oracle whose every listing read throws. -/
def reconErrReads : ListingReads := fun _ => .error ()

/-- A single-owner listing with zero expected proceeds. -/
def reconListingEx : ActiveListingState :=
  { orderHash := "0xh"
    collection := "0xc"
    tokenId := "1"
    expectedProceedsWei := 0
    listedAtMs := 5
    tokenStandard := .erc721
    listedQuantity := 1
    expectedPostSaleBalance := none }

/-- A ledger with `reconListingEx` as its only active listing. -/
def reconStateEx : BotState :=
  { version := 3
    commissionPoolWei := 0
    salePoolWei := 25
    pendingBurnAmount := 0
    pendingBurnCostWei := 0
    activeListings := [reconListingEx]
    lastTaxBlock := 0 }

/-- Witness for C5: the listing at position 0, whose read throws, is
retained in the active set. -/
theorem reconciler_characterization_witness :
    reconListingEx ∈
      (reconcileListings "0xtreasury" 3 reconErrReads reconStateEx).1.activeListings :=
  (reconciler_characterization "0xtreasury" 3 reconErrReads reconStateEx).2.2.2.2.1
    (0, reconListingEx) (by decide) rfl

/-- Witness for C10: the sold zero-proceeds listing is removed from the
in-memory set with no persist and an unchanged sale pool. -/
theorem reconciler_zero_proceeds_removal_not_persisted_witness :
    (reconcileListings "0xtreasury" 3 reconSoldReads reconStateEx).2.1 = none ∧
    (reconcileListings "0xtreasury" 3 reconSoldReads reconStateEx).1.salePoolWei =
      reconStateEx.salePoolWei ∧
    (reconcileListings "0xtreasury" 3 reconSoldReads reconStateEx).1.activeListings =
      ((reconStateEx.activeListings.enum.filter
        fun p => !saleDetected "0xtreasury" 3 reconSoldReads p.1 p.2).map Prod.snd) :=
  (reconciler_zero_proceeds_removal_not_persisted "0xtreasury" 3 reconSoldReads
    reconStateEx).2 (by decide)

/-- A listing row written by `persistState` reads back as the original
listing. -/
theorem rowToListing_listingToRow (l : ActiveListingState) :
    rowToListing (listingToRow l) = l := by
  cases l with
  | mk orderHash collection tokenId expectedProceedsWei listedAtMs tokenStandard
      listedQuantity expectedPostSaleBalance =>
    cases tokenStandard <;>
      simp [rowToListing, listingToRow, tokenStandardString]

/-- Reinserting listings with pairwise-distinct order hashes, disjoint
from the hashes already in the table, succeeds and appends their rows in
order. -/
theorem insertListingRows_eq :
    ∀ (ls : List ActiveListingState) (rows : List ListingRow),
      (∀ l ∈ ls, ∀ r ∈ rows, r.orderHash ≠ l.orderHash) →
      (ls.map (·.orderHash)).Nodup →
      insertListingRows rows ls = some (rows ++ ls.map listingToRow) := by
  intro ls
  induction ls with
  | nil => intro rows _ _; simp [insertListingRows]
  | cons l ls ih =>
    intro rows hdisj hnodup
    have hany : (rows.any fun r => r.orderHash == l.orderHash) = false := by
      rw [List.any_eq_false]
      intro r hr
      simp only [beq_iff_eq]
      exact hdisj l (List.mem_cons_self l ls) r hr
    have hnodup2 : (∀ x ∈ ls, ¬ x.orderHash = l.orderHash) ∧
        (ls.map (·.orderHash)).Nodup := by
      simpa using hnodup
    simp only [insertListingRows, insertListingRow, hany, Bool.false_eq_true, if_false]
    rw [ih (rows ++ [listingToRow l]) ?_ hnodup2.2]
    · rw [List.append_assoc]
      rfl
    · intro l2 hl2 r hr
      rcases List.mem_append.mp hr with hr | hr
      · exact hdisj l2 (List.mem_cons_of_mem _ hl2) r hr
      · rw [List.mem_singleton.mp hr]
        show (listingToRow l).orderHash ≠ l2.orderHash
        intro heq
        exact hnodup2.1 l2 hl2 heq.symm

/-- C1 (amended): for every Ledger whose version is the current
STATE_VERSION, whose order hashes are pairwise distinct and whose
listings are ordered by listedAtMs, persisting and loading yields an
identical value field-for-field.  (Persisting always writes
STATE_VERSION, and loading orders listings by listedAtMs, which forces
the three conditions.) -/
theorem persist_then_load_round_trip :
    ∀ s : BotState, s.version = STATE_VERSION →
      (s.activeListings.map (·.orderHash)).Nodup →
      s.activeListings.Pairwise (fun a b => a.listedAtMs ≤ b.listedAtMs) →
      persistThenLoad s = some s := by
  intro s hv hnodup hsorted
  have hrows := insertListingRows_eq s.activeListings [] (by simp) hnodup
  rw [List.nil_append] at hrows
  have hpair : (s.activeListings.map listingToRow).Pairwise
      (fun a b => (decide (a.listedAtMs ≤ b.listedAtMs)) = true) := by
    rw [List.pairwise_map]
    refine hsorted.imp ?_
    intro a b h
    simpa [listingToRow] using h
  have hms : (s.activeListings.map listingToRow).mergeSort
      (fun a b => decide (a.listedAtMs ≤ b.listedAtMs)) = s.activeListings.map listingToRow :=
    List.mergeSort_of_sorted hpair
  have hback : (s.activeListings.map listingToRow).map rowToListing = s.activeListings := by
    rw [List.map_map]
    exact List.map_id'' (fun l => rowToListing_listingToRow l) _
  obtain ⟨ver, cp, sp, pba, pbc, al, ltb⟩ := s
  simp only [BotState.version] at hv
  simp only [BotState.activeListings] at hrows hms hback
  subst hv
  simp [persistThenLoad, persistState, hrows, readStateFromDatabase, hms, hback,
    STATE_VERSION]

/-- A Ledger carrying a version above the current STATE_VERSION. -/
def versionStateEx : BotState :=
  { version := 4
    commissionPoolWei := 0
    salePoolWei := 0
    pendingBurnAmount := 0
    pendingBurnCostWei := 0
    activeListings := []
    lastTaxBlock := 0 }

/-- C1 counterexample: `persistState` writes the constant STATE_VERSION
instead of the in-memory version, so a Ledger with version 4 loads back
with version 3 — persist-then-load is not the identity on every Ledger
value. -/
theorem persist_load_changes_version :
    persistThenLoad versionStateEx = some { versionStateEx with version := 3 } ∧
    persistThenLoad versionStateEx ≠ some versionStateEx := by
  have h : persistThenLoad versionStateEx = some { versionStateEx with version := 3 } := by
    simp [persistThenLoad, persistState, insertListingRows, readStateFromDatabase,
      versionStateEx, STATE_VERSION]
  refine ⟨h, ?_⟩
  rw [h]
  intro hcontra
  have hv := congrArg BotState.version (Option.some.inj hcontra)
  simp [versionStateEx] at hv

/-- A populated Ledger: two listings with distinct hashes ordered by
listing time, one of each token standard. -/
def roundTripStateEx : BotState :=
  { version := 3
    commissionPoolWei := 11
    salePoolWei := 22
    pendingBurnAmount := 1
    pendingBurnCostWei := 2
    activeListings :=
      [{ orderHash := "0xaaa"
         collection := "0xc1"
         tokenId := "7"
         expectedProceedsWei := 1300
         listedAtMs := 5
         tokenStandard := .erc721
         listedQuantity := 1
         expectedPostSaleBalance := none },
       { orderHash := "0xbbb"
         collection := "0xc2"
         tokenId := "8"
         expectedProceedsWei := 900
         listedAtMs := 9
         tokenStandard := .erc1155
         listedQuantity := 3
         expectedPostSaleBalance := some 4 }]
    lastTaxBlock := 77 }

/-- Witness for C1 (amended) on a populated Ledger. -/
theorem persist_then_load_round_trip_witness :
    persistThenLoad roundTripStateEx = some roundTripStateEx :=
  persist_then_load_round_trip roundTripStateEx rfl (by decide) (by decide)

end TreasuryBot
